import Mathlib

/-!
# Verification of the sodaCat clock-tree frequency resolver

Shallow embedding of `src/generators/cxx/clocktree.hpp` (namespace
`clocktree`, class template `ClockTree`).  The per-chip tables that
instantiate the template are modelled as explicit record fields; register
fields are modelled by the value their read accessor returns in the fixed
register state under consideration (`none` = null `get` pointer, i.e. an
absent field).  Machine integers are modelled as `Nat` with explicit
`% 2^w` where C++ performs a narrowing conversion; the `double`
arithmetic of the Pll path is modelled exactly by round-to-nearest-even
at 53 significant bits (`rnd53`).  C++ undefined behaviour (array access
out of bounds, integer division by zero, converting a non-finite or
out-of-range `double` to `uint32_t`) is modelled by an `Option` failure.
Recursion is modelled with explicit fuel; running out of fuel is the
outer `none` of the result type `Option (Option Nat × List Event)`.
-/

namespace clocktree

/-- An observable side effect of the resolver on the register layer.
The C++ engine can in principle call a field's `get` or `set` accessor;
the trace records which happened, on which field table index, and with
which value.  (`write` is never emitted by the embedded code; it exists
so that "no writes occur" is a meaningful statement.) -/
inductive Event where
  | read (field : Nat) (value : Nat)
  | write (field : Nat) (value : Nat)
deriving DecidableEq, Repr

/-- `struct Generator`: `output`, `control` (selector field), `values`. -/
structure Generator where
  output : Nat
  control : Nat
  values : List Nat
deriving DecidableEq, Repr

/-- `struct Pll`: input/output signals and three register field indices. -/
structure Pll where
  input : Nat
  output : Nat
  feedback_integer : Nat
  feedback_fraction : Nat
  post_divider : Nat
deriving DecidableEq, Repr

/-- `struct Gate`: input/output signals and the control field index. -/
structure Gate where
  input : Nat
  output : Nat
  control : Nat
deriving DecidableEq, Repr

/-- `struct Divider`: `value` is the fixed fallback divisor (uint16_t),
`factor` the runtime divisor field, `denominator` the runtime multiplier
field. -/
structure Divider where
  input : Nat
  output : Nat
  value : Nat
  factor : Nat
  denominator : Nat
deriving DecidableEq, Repr

/-- `struct Mux`: selectable input signals and the selector field. -/
structure Mux where
  output : Nat
  inputs : List Nat
  control : Nat
deriving DecidableEq, Repr

/-- `struct Signal`: the owning element (raw source value) plus the
informational frequency bounds (unused by the resolver). -/
structure Signal where
  source : Nat
  min_freq : Nat
  max_freq : Nat
  nominal_freq : Nat
deriving DecidableEq, Repr

/-- The instantiated `ClockTree` data: the generated per-chip tables of
`Base`, with the register fields replaced by the value their `get`
accessor returns in the register state under consideration.
`register_fields.get? i = some none` models a `RegisterField` whose
`get` pointer is null; `some (some v)` models a readable field whose
read yields `v` (a `uint32_t`).  The `last_*` fields are the values of
`Base::Ix::last_gen` … `Base::Ix::last_mux`. -/
structure ClockTree where
  register_fields : List (Option Nat)
  signals : List Signal
  generators : List Generator
  plls : List Pll
  gates : List Gate
  dividers : List Divider
  muxes : List Mux
  last_gen : Nat
  last_pll : Nat
  last_gate : Nat
  last_div : Nat
  last_mux : Nat
deriving DecidableEq, Repr

/-- `Base::register_fields[i].get`: `none` means the table access itself
is out of bounds (C++ UB when it happens in the resolver); `some none`
is a null `get` pointer; `some (some v)` a read accessor returning `v`. -/
def readField (t : ClockTree) (i : Nat) : Option (Option Nat) :=
  t.register_fields.get? i

/-- The trace produced by consulting one register field: a single `read`
event when the accessor exists, nothing when it is null. -/
def optEv (i : Nat) : Option Nat → List Event
  | none => []
  | some v => [Event.read i v]

/-! ## Round-to-nearest-even at 53 bits: the model of IEEE-754 `double`

All `double` values appearing in the Pll computation are nonnegative and
far inside the normal range, so binary64 arithmetic is exactly:
round the exact rational result to 53 significant bits, ties to even. -/

/-- Fuelled binary logarithm; `lg2F f n` is `⌊log₂ n⌋` whenever
`1 ≤ n < 2 ^ f`.  (Structural recursion on fuel keeps it kernel-reducible.) -/
def lg2F : Nat → Nat → Nat
  | 0, _ => 0
  | f + 1, n => if n < 2 then 0 else lg2F f (n / 2) + 1

/-- Binary logarithm adequate for every value below `2 ^ 128`. -/
def lg2 (n : Nat) : Nat := lg2F 128 n

/-- `⌊log₂ q⌋` of a positive rational whose magnitude and reciprocal stay
below `2 ^ 126`. -/
def qlog2 (q : ℚ) : ℤ :=
  if 1 ≤ q then (lg2 ⌊q⌋.toNat : ℤ)
  else
    if (2 : ℚ) ^ (-(lg2 ⌊q⁻¹⌋.toNat : ℤ)) ≤ q then -(lg2 ⌊q⁻¹⌋.toNat : ℤ)
    else -(lg2 ⌊q⁻¹⌋.toNat : ℤ) - 1

/-- Round a rational to the nearest integer, ties to even. -/
def rne (q : ℚ) : ℤ :=
  if q - ⌊q⌋ < 1 / 2 then ⌊q⌋
  else if 1 / 2 < q - ⌊q⌋ then ⌊q⌋ + 1
  else if 2 ∣ ⌊q⌋ then ⌊q⌋ else ⌊q⌋ + 1

/-- Round a nonnegative rational to 53 significant bits, nearest, ties to
even: the exact result of an IEEE-754 binary64 operation in the normal
range. -/
def rnd53 (q : ℚ) : ℚ :=
  if q ≤ 0 then 0
  else (rne (q * 2 ^ ((52 : ℤ) - qlog2 q)) : ℚ) * 2 ^ (qlog2 q - 52)

/-! ## The per-kind evaluators (`ClockTree::get_frequency` overloads)

Each takes `rec`, the recursive entry point `getFrequency` at the
remaining fuel.  Result: `none` = out of fuel somewhere below,
`some (none, tr)` = C++ undefined behaviour after trace `tr`,
`some (some v, tr)` = the call returns `v` having produced trace `tr`. -/

/-- `get_frequency(Generator const &)` (clocktree.hpp:121-127). -/
def get_frequency_gen (t : ClockTree) (gen : Generator) :
    Option (Option Nat × List Event) :=
  match readField t gen.control with
  | none => some (none, [])
  | some acc =>
    let index := acc.getD 0
    if index ≥ gen.values.length then some (some 0, optEv gen.control acc)
    else some (some (gen.values.getD index 0), optEv gen.control acc)

/-- `get_frequency(Pll const &)` (clocktree.hpp:129-139).  The feedback
factor and the result are computed in `double`:
`fb = fb_int + fb_frac / 65536.0` then `uint32_t(input_freq * fb / post_div)`.
A zero post-divider makes `input_freq * fb / post_div` non-finite, whose
conversion to `uint32_t` is UB, as is a quotient `≥ 2^32`. -/
def get_frequency_pll (t : ClockTree) (rec : Nat → Option (Option Nat × List Event))
    (pll : Pll) : Option (Option Nat × List Event) :=
  match rec pll.input with
  | none => none
  | some (none, ev) => some (none, ev)
  | some (some input_freq, ev0) =>
    match readField t pll.feedback_integer with
    | none => some (none, ev0)
    | some accI =>
      let fb_int := accI.getD 1
      match readField t pll.feedback_fraction with
      | none => some (none, ev0 ++ optEv pll.feedback_integer accI)
      | some accF =>
        let fb_frac := accF.getD 0
        match readField t pll.post_divider with
        | none => some (none, ev0 ++ optEv pll.feedback_integer accI
            ++ optEv pll.feedback_fraction accF)
        | some accD =>
          let post_div := accD.getD 1
          let ev := ev0 ++ optEv pll.feedback_integer accI
            ++ optEv pll.feedback_fraction accF ++ optEv pll.post_divider accD
          let fb : ℚ := rnd53 ((fb_int : ℚ) + rnd53 ((fb_frac : ℚ) / 65536))
          let p1 : ℚ := rnd53 ((input_freq : ℚ) * fb)
          if post_div = 0 then some (none, ev)
          else
            let p2 : ℚ := rnd53 (p1 / (post_div : ℚ))
            if p2 < 2 ^ 32 then some (some ⌊p2⌋.toNat, ev)
            else some (none, ev)

/-- `get_frequency(Gate const &)` (clocktree.hpp:141-144):
`return get && get(this) ? getFrequency(gate.input) : 0;`. -/
def get_frequency_gate (t : ClockTree) (rec : Nat → Option (Option Nat × List Event))
    (gate : Gate) : Option (Option Nat × List Event) :=
  match readField t gate.control with
  | none => some (none, [])
  | some none => some (some 0, [])
  | some (some v) =>
    if v ≠ 0 then
      match rec gate.input with
      | none => none
      | some (r, ev) => some (r, Event.read gate.control v :: ev)
    else some (some 0, [Event.read gate.control v])

/-- `get_frequency(Divider const &)` (clocktree.hpp:146-153).  The input
frequency is widened to `uint64_t`; `input_freq * denom` is exact in
64 bits, the quotient is narrowed to `uint32_t` (mod `2^32`); division
by a zero factor is UB. -/
def get_frequency_div (t : ClockTree) (rec : Nat → Option (Option Nat × List Event))
    (div : Divider) : Option (Option Nat × List Event) :=
  match rec div.input with
  | none => none
  | some (none, ev) => some (none, ev)
  | some (some input_freq, ev0) =>
    match readField t div.factor with
    | none => some (none, ev0)
    | some accF =>
      let factor := accF.getD div.value
      match readField t div.denominator with
      | none => some (none, ev0 ++ optEv div.factor accF)
      | some accD =>
        let denom := accD.getD 1
        let ev := ev0 ++ optEv div.factor accF ++ optEv div.denominator accD
        if factor = 0 then some (none, ev)
        else some (some (input_freq * denom % 2 ^ 64 / factor % 2 ^ 32), ev)

/-- `get_frequency(Mux const &)` (clocktree.hpp:155-161). -/
def get_frequency_mux (t : ClockTree) (rec : Nat → Option (Option Nat × List Event))
    (mux : Mux) : Option (Option Nat × List Event) :=
  match readField t mux.control with
  | none => some (none, [])
  | some acc =>
    let index := acc.getD 0
    if index ≥ mux.inputs.length then some (some 0, optEv mux.control acc)
    else
      match rec (mux.inputs.getD index 0) with
      | none => none
      | some (r, evIn) => some (r, optEv mux.control acc ++ evIn)

/-- Which kind-local array `getFrequency` accesses for a raw source
value, and at which offset: the cascade of comparisons against
`Base::Ix::last_gen` … `last_mux` of clocktree.hpp:105-117. -/
inductive ElemRef where
  | noSource
  | gen (offset : Nat)
  | pll (offset : Nat)
  | gate (offset : Nat)
  | div (offset : Nat)
  | mux (offset : Nat)
  | invalid
deriving DecidableEq, Repr

/-- The dispatch arithmetic of `ClockTree::getFrequency`
(clocktree.hpp:105-117), verbatim. -/
def dispatchElem (t : ClockTree) (elem : Nat) : ElemRef :=
  if elem = 0 then ElemRef.noSource
  else if elem ≤ t.last_gen then ElemRef.gen (elem - 1)
  else if elem ≤ t.last_pll then ElemRef.pll (elem - t.last_gen)
  else if elem ≤ t.last_gate then ElemRef.gate (elem - t.last_pll)
  else if elem ≤ t.last_div then ElemRef.div (elem - t.last_gate)
  else if elem ≤ t.last_mux then ElemRef.mux (elem - t.last_div)
  else ElemRef.invalid

/-- The upstream signals an element (given by raw source value) can
recurse into: used to express acyclicity of the tables. -/
def elemInputs (t : ClockTree) (elem : Nat) : List Nat :=
  match dispatchElem t elem with
  | ElemRef.noSource => []
  | ElemRef.gen _ => []
  | ElemRef.pll i =>
    match t.plls.get? i with
    | none => []
    | some p => [p.input]
  | ElemRef.gate i =>
    match t.gates.get? i with
    | none => []
    | some g => [g.input]
  | ElemRef.div i =>
    match t.dividers.get? i with
    | none => []
    | some d => [d.input]
  | ElemRef.mux i =>
    match t.muxes.get? i with
    | none => []
    | some m => m.inputs
  | ElemRef.invalid => []

/-- `ClockTree::getFrequency` (clocktree.hpp:100-118), with explicit
fuel for the recursion.  An out-of-range signal index returns 0 before
anything else happens; a raw source value of 0 returns 0; otherwise the
value dispatches on the `last_*` boundaries into the kind-local array.
An element array access out of bounds is C++ UB (`some (none, [])`). -/
def getFrequency (t : ClockTree) : Nat → Nat → Option (Option Nat × List Event)
  | 0, _ => none
  | fuel + 1, s =>
    if s ≥ t.signals.length then some (some 0, [])
    else
      match t.signals.get? s with
      | none => some (none, [])
      | some sig =>
        match dispatchElem t sig.source with
        | ElemRef.noSource => some (some 0, [])
        | ElemRef.gen i =>
          match t.generators.get? i with
          | none => some (none, [])
          | some g => get_frequency_gen t g
        | ElemRef.pll i =>
          match t.plls.get? i with
          | none => some (none, [])
          | some p => get_frequency_pll t (fun s2 => getFrequency t fuel s2) p
        | ElemRef.gate i =>
          match t.gates.get? i with
          | none => some (none, [])
          | some g => get_frequency_gate t (fun s2 => getFrequency t fuel s2) g
        | ElemRef.div i =>
          match t.dividers.get? i with
          | none => some (none, [])
          | some d => get_frequency_div t (fun s2 => getFrequency t fuel s2) d
        | ElemRef.mux i =>
          match t.muxes.get? i with
          | none => some (none, [])
          | some m => get_frequency_mux t (fun s2 => getFrequency t fuel s2) m
        | ElemRef.invalid => some (some 0, [])

/-- Every event of a trace is a `read` of a configured field returning
exactly the value the fixed register state holds: no writes, and reads
always reflect the current state. -/
def ReadsOk (t : ClockTree) (tr : List Event) : Prop :=
  ∀ e ∈ tr, ∃ i v, e = Event.read i v ∧ readField t i = some (some v)

/-! ## Concrete instances used to exercise the theorems -/

/-- A tree with only a register-field table: enough for the per-element
evaluators, which consult nothing else. -/
def regTree (fields : List (Option Nat)) : ClockTree :=
  ⟨fields, [], [], [], [], [], [], 0, 0, 0, 0, 0⟩

/-- Generator (signal 0, raw source 1, value 4194303 Hz, null selector
accessor at field 3) feeding a Pll (signal 1, raw source 2) whose fields
read: feedback integer 32832, feedback fraction 1, post-divider 64.
The exact product `4194303 * (32832 * 65536 + 1)` needs 54 bits. -/
def pllRoundingTree : ClockTree :=
  { register_fields := [some 32832, some 1, some 64, none]
    signals := [⟨1, 0, 0, 0⟩, ⟨2, 0, 0, 0⟩]
    generators := [⟨0, 3, [4194303]⟩]
    plls := [⟨0, 0, 0, 0, 0⟩, ⟨0, 1, 0, 1, 2⟩]
    gates := [], dividers := [], muxes := []
    last_gen := 1, last_pll := 2, last_gate := 2, last_div := 2, last_mux := 2 }

/-- Generator producing 2^31 Hz feeding a Divider whose factor field
reads 1 and whose denominator field reads 4: the exact quotient 2^33
exceeds 32 bits. -/
def dividerOverflowTree : ClockTree :=
  { register_fields := [some 1, some 4, none]
    signals := [⟨1, 0, 0, 0⟩, ⟨2, 0, 0, 0⟩]
    generators := [⟨0, 2, [2147483648]⟩]
    plls := [], gates := []
    dividers := [⟨0, 0, 0, 0, 0⟩, ⟨0, 1, 7, 0, 1⟩]
    muxes := []
    last_gen := 1, last_pll := 1, last_gate := 1, last_div := 2, last_mux := 2 }

/-- Generator feeding a Divider whose factor field reads 0: the C++ code
divides by zero. -/
def dividerZeroTree : ClockTree :=
  { register_fields := [some 0, none]
    signals := [⟨1, 0, 0, 0⟩, ⟨2, 0, 0, 0⟩]
    generators := [⟨0, 1, [1000]⟩]
    plls := [], gates := []
    dividers := [⟨0, 0, 0, 0, 0⟩, ⟨0, 1, 4, 0, 1⟩]
    muxes := []
    last_gen := 1, last_pll := 1, last_gate := 1, last_div := 2, last_mux := 2 }

/-- Generator feeding a Pll whose post-divider field reads 0: the C++
code divides the `double` product by zero and converts the non-finite
result to `uint32_t`. -/
def pllZeroTree : ClockTree :=
  { register_fields := [some 50, some 0, some 0, none]
    signals := [⟨1, 0, 0, 0⟩, ⟨2, 0, 0, 0⟩]
    generators := [⟨0, 3, [1000]⟩]
    plls := [⟨0, 0, 0, 0, 0⟩, ⟨0, 1, 0, 1, 2⟩]
    gates := [], dividers := [], muxes := []
    last_gen := 1, last_pll := 2, last_gate := 2, last_div := 2, last_mux := 2 }

/-- Boundaries 2/4/6/8/10: two elements of every kind. -/
def boundaryTree : ClockTree :=
  { register_fields := []
    signals := []
    generators := [], plls := [], gates := [], dividers := [], muxes := []
    last_gen := 2, last_pll := 4, last_gate := 6, last_div := 8, last_mux := 10 }

/-- Generator (readable selector at field 0 returning 1, values
[5, 7]) as signal 0, gated by field 1 (reading 1) as signal 1: a
two-level chain whose resolution reads both fields. -/
def chainTree : ClockTree :=
  { register_fields := [some 1, some 1]
    signals := [⟨1, 0, 0, 0⟩, ⟨2, 0, 0, 0⟩]
    generators := [⟨0, 0, [5, 7]⟩]
    plls := []
    gates := [⟨0, 0, 0⟩, ⟨0, 1, 1⟩]
    dividers := [], muxes := []
    last_gen := 1, last_pll := 1, last_gate := 2, last_div := 2, last_mux := 2 }

/-! ## Facts about the rounding model -/

theorem lg2F_spec (f : Nat) : ∀ n, 1 ≤ n → n < 2 ^ f →
    2 ^ lg2F f n ≤ n ∧ n < 2 ^ (lg2F f n + 1) := by
  induction f with
  | zero => intro n h1 h2; omega
  | succ f ih =>
    intro n h1 h2
    rw [lg2F]
    split
    · next h => simp only [pow_zero, pow_one]; omega
    · next h =>
      have h2' : n / 2 < 2 ^ f := by rw [pow_succ] at h2; omega
      have h1' : 1 ≤ n / 2 := by omega
      obtain ⟨a, b⟩ := ih (n / 2) h1' h2'
      rw [pow_succ, pow_succ] at *
      omega

theorem qlog2_spec (q : ℚ) (h0 : 0 < q)
    (hlo : (2 : ℚ) ^ (-126 : ℤ) < q) (hhi : q < (2 : ℚ) ^ (126 : ℤ)) :
    (2 : ℚ) ^ qlog2 q ≤ q ∧ q < (2 : ℚ) ^ (qlog2 q + 1) := by
  have h2 : (0 : ℚ) < 2 := by norm_num
  rw [qlog2]
  split
  · next hq =>
    set m := ⌊q⌋.toNat with hm
    have hfl : 1 ≤ ⌊q⌋ := by
      rw [Int.le_floor]; exact_mod_cast hq
    have hm1 : 1 ≤ m := by omega
    have hcast : ((m : ℤ) : ℚ) = ((⌊q⌋ : ℤ) : ℚ) := by
      rw [hm, Int.toNat_of_nonneg (by omega)]
    have hmq : (m : ℚ) ≤ q := by
      have := Int.floor_le q
      push_cast at hcast ⊢
      rw [hcast]; exact this
    have hqm : q < (m : ℚ) + 1 := by
      have := Int.lt_floor_add_one q
      push_cast at hcast ⊢
      rw [hcast]; exact this
    have hmbound : m < 2 ^ 128 := by
      have h126 : (2 : ℚ) ^ (126 : ℤ) = ((2 ^ 126 : ℕ) : ℚ) := by
        rw [show ((126 : ℤ)) = ((126 : ℕ) : ℤ) by norm_num, zpow_natCast]; push_cast; ring
      have : (m : ℚ) < ((2 ^ 126 : ℕ) : ℚ) := lt_of_le_of_lt hmq (by rw [← h126]; exact hhi)
      have : m < 2 ^ 126 := by exact_mod_cast this
      calc m < 2 ^ 126 := this
        _ ≤ 2 ^ 128 := Nat.pow_le_pow_right (by norm_num) (by norm_num)
    obtain ⟨ha, hb⟩ := lg2F_spec 128 m hm1 hmbound
    constructor
    · calc (2 : ℚ) ^ ((lg2 m : ℕ) : ℤ) = ((2 ^ lg2 m : ℕ) : ℚ) := by
            rw [zpow_natCast]; push_cast; ring
        _ ≤ (m : ℚ) := by exact_mod_cast ha
        _ ≤ q := hmq
    · calc q < (m : ℚ) + 1 := hqm
        _ ≤ ((2 ^ (lg2 m + 1) : ℕ) : ℚ) := by exact_mod_cast hb
        _ = (2 : ℚ) ^ (((lg2 m : ℕ) : ℤ) + 1) := by
            rw [show (((lg2 m : ℕ) : ℤ) + 1) = (((lg2 m + 1 : ℕ)) : ℤ) by push_cast; ring,
              zpow_natCast]
            push_cast; ring
  · next hq =>
    have hq1 : q < 1 := lt_of_not_ge hq
    have hr1 : 1 < q⁻¹ := (one_lt_inv₀ h0).2 hq1
    set m := ⌊q⁻¹⌋.toNat with hm
    have hfl : 1 ≤ ⌊q⁻¹⌋ := by
      rw [Int.le_floor]; push_cast; exact le_of_lt hr1
    have hm1 : 1 ≤ m := by omega
    have hcast : ((m : ℤ) : ℚ) = ((⌊q⁻¹⌋ : ℤ) : ℚ) := by
      rw [hm, Int.toNat_of_nonneg (by omega)]
    have hmr : (m : ℚ) ≤ q⁻¹ := by
      have := Int.floor_le q⁻¹
      push_cast at hcast ⊢
      rw [hcast]; exact this
    have hrm : q⁻¹ < (m : ℚ) + 1 := by
      have := Int.lt_floor_add_one q⁻¹
      push_cast at hcast ⊢
      rw [hcast]; exact this
    have hrpos : (0 : ℚ) < q⁻¹ := inv_pos.mpr h0
    have hrbound : q⁻¹ < (2 : ℚ) ^ (126 : ℤ) := by
      have := inv_strictAnti₀ (zpow_pos h2 (-126)) hlo
      rwa [← zpow_neg, neg_neg] at this
    have hmbound : m < 2 ^ 128 := by
      have h126 : (2 : ℚ) ^ (126 : ℤ) = ((2 ^ 126 : ℕ) : ℚ) := by
        rw [show ((126 : ℤ)) = ((126 : ℕ) : ℤ) by norm_num, zpow_natCast]; push_cast; ring
      have : (m : ℚ) < ((2 ^ 126 : ℕ) : ℚ) := lt_of_le_of_lt hmr (by rw [← h126]; exact hrbound)
      have : m < 2 ^ 126 := by exact_mod_cast this
      calc m < 2 ^ 126 := this
        _ ≤ 2 ^ 128 := Nat.pow_le_pow_right (by norm_num) (by norm_num)
    obtain ⟨ha, hb⟩ := lg2F_spec 128 m hm1 hmbound
    set l := lg2 m with hl
    have hpowl : ((2 ^ l : ℕ) : ℚ) = (2 : ℚ) ^ ((l : ℕ) : ℤ) := by
      rw [zpow_natCast]; push_cast; ring
    have hql : q ≤ (2 : ℚ) ^ (-(l : ℤ)) := by
      have h1 : (2 : ℚ) ^ ((l : ℕ) : ℤ) ≤ q⁻¹ := by rw [← hpowl]; exact_mod_cast le_trans (by exact_mod_cast ha) hmr
      have h2' : (0 : ℚ) < (2 : ℚ) ^ ((l : ℕ) : ℤ) := zpow_pos h2 _
      have := inv_anti₀ h2' h1
      rwa [inv_inv, ← zpow_neg] at this
    have hql2 : (2 : ℚ) ^ (-(l : ℤ) - 1) < q := by
      have h1 : q⁻¹ < (2 : ℚ) ^ (((l : ℕ) : ℤ) + 1) := by
        calc q⁻¹ < (m : ℚ) + 1 := hrm
          _ ≤ ((2 ^ (l + 1) : ℕ) : ℚ) := by exact_mod_cast hb
          _ = (2 : ℚ) ^ (((l : ℕ) : ℤ) + 1) := by
              rw [show ((((l : ℕ) : ℤ)) + 1) = (((l + 1 : ℕ)) : ℤ) by push_cast; ring,
                zpow_natCast]
              push_cast; ring
      have := inv_strictAnti₀ hrpos h1
      rw [inv_inv] at this
      rwa [← zpow_neg, neg_add, ← sub_eq_add_neg] at this
    split
    · next hbr =>
      refine ⟨hbr, ?_⟩
      calc q ≤ (2 : ℚ) ^ (-(l : ℤ)) := hql
        _ < (2 : ℚ) ^ (-(l : ℤ) + 1) := by
            apply zpow_lt_zpow_right₀ (by norm_num) (by omega)
    · next hbr =>
      constructor
      · exact le_of_lt hql2
      · rw [sub_add_cancel]
        exact lt_of_not_ge hbr

theorem rne_intCast (z : ℤ) : rne ((z : ℤ) : ℚ) = z := by
  rw [rne]
  simp [Int.floor_intCast]

theorem rne_natCast (n : ℕ) : rne ((n : ℚ)) = (n : ℤ) := by
  rw [rne]
  simp [Int.floor_natCast]

/-- Dyadic rationals with at most 53 significant bits are fixed points of
binary64 rounding (the exponent range is restricted to what the clock
computation can produce, far from overflow and underflow). -/
theorem rnd53_exact (n : ℕ) (t : ℤ) (hn0 : 0 < n) (hn : n < 2 ^ 53)
    (ht1 : -60 ≤ t) (ht2 : t ≤ 60) :
    rnd53 ((n : ℚ) * 2 ^ t) = (n : ℚ) * 2 ^ t := by
  have h2 : (0 : ℚ) < 2 := by norm_num
  have h2' : (2 : ℚ) ≠ 0 := by norm_num
  set q : ℚ := (n : ℚ) * 2 ^ t with hq
  have hn1 : (1 : ℚ) ≤ (n : ℚ) := by exact_mod_cast hn0
  have hqpos : 0 < q := by positivity
  have hlo : (2 : ℚ) ^ (-126 : ℤ) < q := by
    calc (2 : ℚ) ^ (-126 : ℤ) < (2 : ℚ) ^ t := by
          apply zpow_lt_zpow_right₀ (by norm_num) (by omega)
      _ = 1 * (2 : ℚ) ^ t := (one_mul _).symm
      _ ≤ q := by
          rw [hq]
          exact mul_le_mul_of_nonneg_right hn1 (le_of_lt (zpow_pos h2 t))
  have hhi : q < (2 : ℚ) ^ (126 : ℤ) := by
    have hnlt : (n : ℚ) < (2 : ℚ) ^ (53 : ℤ) := by
      have : ((n : ℚ)) < ((2 ^ 53 : ℕ) : ℚ) := by exact_mod_cast hn
      calc (n : ℚ) < ((2 ^ 53 : ℕ) : ℚ) := this
        _ = (2 : ℚ) ^ (53 : ℤ) := by push_cast; norm_num
    calc q < (2 : ℚ) ^ (53 : ℤ) * (2 : ℚ) ^ t := by
          rw [hq]
          exact mul_lt_mul_of_pos_right hnlt (zpow_pos h2 t)
      _ = (2 : ℚ) ^ (53 + t) := (zpow_add₀ h2' 53 t).symm
      _ ≤ (2 : ℚ) ^ (126 : ℤ) := by
          apply zpow_le_zpow_right₀ (by norm_num) (by omega)
  obtain ⟨hspec1, hspec2⟩ := qlog2_spec q hqpos hlo hhi
  set e := qlog2 q with he
  have het : e ≤ t + 52 := by
    by_contra hc
    push_neg at hc
    have h1 : (2 : ℚ) ^ (t + 53) ≤ (2 : ℚ) ^ e := by
      apply zpow_le_zpow_right₀ (by norm_num) (by omega)
    have h2'' : q < (2 : ℚ) ^ (t + 53) := by
      have hnlt : (n : ℚ) < (2 : ℚ) ^ (53 : ℤ) := by
        have : ((n : ℚ)) < ((2 ^ 53 : ℕ) : ℚ) := by exact_mod_cast hn
        calc (n : ℚ) < ((2 ^ 53 : ℕ) : ℚ) := this
          _ = (2 : ℚ) ^ (53 : ℤ) := by push_cast; norm_num
      calc q < (2 : ℚ) ^ (53 : ℤ) * (2 : ℚ) ^ t := by
            rw [hq]
            exact mul_lt_mul_of_pos_right hnlt (zpow_pos h2 t)
        _ = (2 : ℚ) ^ (53 + t) := (zpow_add₀ h2' 53 t).symm
        _ = (2 : ℚ) ^ (t + 53) := by ring_nf
    have := lt_of_le_of_lt (le_trans h1 hspec1) h2''
    exact lt_irrefl _ this
  have hk : (0 : ℤ) ≤ t + 52 - e := by omega
  set k : ℕ := (t + 52 - e).toNat with hkdef
  have hkz : (k : ℤ) = t + 52 - e := Int.toNat_of_nonneg hk
  have hm : q * 2 ^ ((52 : ℤ) - e) = ((n * 2 ^ k : ℕ) : ℚ) := by
    rw [hq]
    push_cast
    rw [mul_assoc, ← zpow_natCast (2 : ℚ) k, hkz, ← zpow_add₀ h2']
    ring_nf
  rw [rnd53, if_neg (not_le.mpr hqpos), hm, rne_natCast]
  push_cast
  rw [mul_assoc, ← zpow_natCast (2 : ℚ) k, hkz, ← zpow_add₀ h2']
  ring_nf

theorem rnd53_zero : rnd53 0 = 0 := by
  rw [rnd53, if_pos le_rfl]

/-- Fixed point of rounding for naturals below `2 ^ 53`. -/
theorem rnd53_natCast (n : ℕ) (hn : n < 2 ^ 53) : rnd53 (n : ℚ) = (n : ℚ) := by
  rcases Nat.eq_zero_or_pos n with h | h
  · subst h; simpa using rnd53_zero
  · have := rnd53_exact n 0 h hn (by norm_num) (by norm_num)
    simpa using this

/-- Truncating a nonnegative rational `a / b` of naturals toward zero is
natural division. -/
theorem floor_nat_div (a b : ℕ) : ⌊((a : ℚ) / (b : ℚ))⌋.toNat = a / b := by
  rcases Nat.eq_zero_or_pos b with hb | hb
  · subst hb; simp
  · rw [Int.floor_toNat, Nat.floor_div_nat (a : ℚ) b, Nat.floor_natCast]

/-- A natural below `2 ^ 53` divided by a power of two is exact in
binary64. -/
theorem rnd53_nat_div_pow2 (n c : ℕ) (hn : n < 2 ^ 53) (hc : c ≤ 60) :
    rnd53 ((n : ℚ) / ((2 ^ c : ℕ) : ℚ)) = (n : ℚ) / ((2 ^ c : ℕ) : ℚ) := by
  rcases Nat.eq_zero_or_pos n with h | h
  · subst h; simpa using rnd53_zero
  · have key : (n : ℚ) / ((2 ^ c : ℕ) : ℚ) = (n : ℚ) * 2 ^ (-(c : ℤ)) := by
      push_cast
      rw [div_eq_mul_inv, ← zpow_natCast (2 : ℚ) c, ← zpow_neg]
    rw [key, rnd53_exact n (-(c : ℤ)) h hn (by omega) (by omega)]

/-- The `double` chain of `get_frequency(Pll)` computes the exact
rational quotient whenever the 64-bit-style product fits in 53 bits and
the post-divider is a power of two. -/
theorem pll_double_exact (f fi fr j : ℕ) (hfi : fi < 2 ^ 32) (hfr : fr < 2 ^ 32)
    (hj : j < 32) (hprod : f * (fi * 65536 + fr) < 2 ^ 53) :
    rnd53 (rnd53 ((f : ℚ) * rnd53 ((fi : ℚ) + rnd53 ((fr : ℚ) / 65536))) / ((2 ^ j : ℕ) : ℚ))
      = ((f * (fi * 65536 + fr) : ℕ) : ℚ) / ((65536 * 2 ^ j : ℕ) : ℚ) := by
  have h65536 : ((65536 : ℚ)) = ((2 ^ 16 : ℕ) : ℚ) := by norm_num
  have hfr53 : fr < 2 ^ 53 := by omega
  have s1 : rnd53 ((fr : ℚ) / 65536) = (fr : ℚ) / 65536 := by
    rw [h65536, rnd53_nat_div_pow2 fr 16 hfr53 (by norm_num)]
  rw [s1]
  set M : ℕ := fi * 65536 + fr with hM
  have hM53 : M < 2 ^ 53 := by omega
  have s2sum : (fi : ℚ) + (fr : ℚ) / 65536 = (M : ℚ) / ((2 ^ 16 : ℕ) : ℚ) := by
    rw [hM]
    push_cast
    field_simp
  have s2 : rnd53 ((fi : ℚ) + (fr : ℚ) / 65536) = (M : ℚ) / ((2 ^ 16 : ℕ) : ℚ) := by
    rw [s2sum, rnd53_nat_div_pow2 M 16 hM53 (by norm_num)]
  rw [s2]
  have s3mul : (f : ℚ) * ((M : ℚ) / ((2 ^ 16 : ℕ) : ℚ)) = ((f * M : ℕ) : ℚ) / ((2 ^ 16 : ℕ) : ℚ) := by
    push_cast
    ring
  have s3 : rnd53 ((f : ℚ) * ((M : ℚ) / ((2 ^ 16 : ℕ) : ℚ))) = ((f * M : ℕ) : ℚ) / ((2 ^ 16 : ℕ) : ℚ) := by
    rw [s3mul, rnd53_nat_div_pow2 (f * M) 16 hprod (by norm_num)]
  rw [s3]
  have s4div : ((f * M : ℕ) : ℚ) / ((2 ^ 16 : ℕ) : ℚ) / ((2 ^ j : ℕ) : ℚ)
      = ((f * M : ℕ) : ℚ) / ((2 ^ (16 + j) : ℕ) : ℚ) := by
    rw [div_div]
    congr 1
    push_cast
    rw [pow_add]
    norm_num
  have s5 : ((65536 * 2 ^ j : ℕ) : ℚ) = ((2 ^ (16 + j) : ℕ) : ℚ) := by
    congr 1
    rw [pow_add, show (65536 : ℕ) = 2 ^ 16 from by norm_num]
  rw [s4div, rnd53_nat_div_pow2 (f * M) (16 + j) hprod (by omega), s5]

/-! ## The claims -/

set_option maxRecDepth 1000000

attribute [local semireducible] Rat.mul Rat.add Rat.sub Rat.inv Rat.ofScientific

/-- C5: a Generator with a null selector accessor returns the first
configured value with no register read (`getD 0 0` is 0 exactly when the
value list is empty, matching the "0 if empty" case); with a readable
selector it reads it, returns 0 if the index is out of range for the
value list, and the selected list entry verbatim otherwise. -/
theorem generator_value_selection (t : ClockTree) (g : Generator) :
    (readField t g.control = some none →
      get_frequency_gen t g = some (some (g.values.getD 0 0), [])) ∧
    (∀ v, readField t g.control = some (some v) →
      get_frequency_gen t g =
        some (some (if v < g.values.length then g.values.getD v 0 else 0),
          [Event.read g.control v])) := by
  constructor
  · intro h
    rcases hv : g.values with _ | ⟨a, l⟩ <;>
      simp [get_frequency_gen, h, optEv, hv]
  · intro v h
    by_cases hv : v < g.values.length <;>
      simp [get_frequency_gen, h, optEv, hv, Nat.not_lt.mp, le_of_not_lt]

/-- C5 witness: values {1000, 2000, 3000, 4000} with selector reading 2
yield 3000; selector reading 9 yields 0; a null accessor yields the
first value 1000 with an empty trace. -/
theorem generator_value_selection_witness :
    get_frequency_gen (regTree [some 2]) ⟨0, 0, [1000, 2000, 3000, 4000]⟩
      = some (some 3000, [Event.read 0 2]) ∧
    get_frequency_gen (regTree [some 9]) ⟨0, 0, [1000, 2000, 3000, 4000]⟩
      = some (some 0, [Event.read 0 9]) ∧
    get_frequency_gen (regTree [none]) ⟨0, 0, [1000, 2000, 3000, 4000]⟩
      = some (some 1000, []) := by
  refine ⟨?_, ?_, ?_⟩
  · have h := (generator_value_selection (regTree [some 2]) ⟨0, 0, [1000, 2000, 3000, 4000]⟩).2
      2 (by decide)
    simpa using h
  · have h := (generator_value_selection (regTree [some 9]) ⟨0, 0, [1000, 2000, 3000, 4000]⟩).2
      9 (by decide)
    simpa using h
  · have h := (generator_value_selection (regTree [none]) ⟨0, 0, [1000, 2000, 3000, 4000]⟩).1
      (by decide)
    simpa using h

/-- C7: a signal index at or beyond the signal table length returns 0 at
once, with an empty event trace (no register reads) and no recursive
call (the result does not depend on the remaining fuel). -/
theorem out_of_range_signal_returns_zero (t : ClockTree) (s fuel : ℕ)
    (h : t.signals.length ≤ s) :
    getFrequency t (fuel + 1) s = some (some 0, []) := by
  rw [getFrequency]
  simp [h]

/-- C7 witness: the two-signal chain tree returns 0 for signal 5 with no
reads, at any small fuel. -/
theorem out_of_range_signal_returns_zero_witness :
    getFrequency chainTree 1 5 = some (some 0, []) ∧
    getFrequency chainTree 7 5 = some (some 0, []) :=
  ⟨out_of_range_signal_returns_zero chainTree 5 0 (by decide),
   out_of_range_signal_returns_zero chainTree 5 6 (by decide)⟩

/-- C8: a Gate whose control field has a null read accessor returns 0
(always closed, with no read); with a readable accessor it forwards the
upstream result exactly when the read value is nonzero, and returns 0
when the value is zero. -/
theorem gate_absent_control_closed (t : ClockTree)
    (rec : Nat → Option (Option Nat × List Event)) (g : Gate) :
    (readField t g.control = some none →
      get_frequency_gate t rec g = some (some 0, [])) ∧
    (∀ v r, readField t g.control = some (some v) → v ≠ 0 →
      rec g.input = some r →
      get_frequency_gate t rec g = some (r.1, Event.read g.control v :: r.2)) ∧
    (∀ v, readField t g.control = some (some v) → v = 0 →
      get_frequency_gate t rec g = some (some 0, [Event.read g.control v])) := by
  refine ⟨?_, ?_, ?_⟩
  · intro h
    simp [get_frequency_gate, h]
  · intro v r h hv hrec
    simp [get_frequency_gate, h, hv, hrec]
  · intro v h hv
    subst hv
    simp [get_frequency_gate, h]

/-- C8 witness: with an absent accessor the gate yields 0 and no reads;
with the accessor reading 1 it forwards the upstream value 123; reading
0 it yields 0. -/
theorem gate_absent_control_closed_witness :
    get_frequency_gate (regTree [none]) (fun _ => some (some 123, [])) ⟨0, 0, 0⟩
      = some (some 0, []) ∧
    get_frequency_gate (regTree [some 1]) (fun _ => some (some 123, [])) ⟨0, 0, 0⟩
      = some (some 123, [Event.read 0 1]) ∧
    get_frequency_gate (regTree [some 0]) (fun _ => some (some 123, [])) ⟨0, 0, 0⟩
      = some (some 0, [Event.read 0 0]) := by
  refine ⟨?_, ?_, ?_⟩
  · exact (gate_absent_control_closed (regTree [none]) (fun _ => some (some 123, []))
      ⟨0, 0, 0⟩).1 (by decide)
  · have h := (gate_absent_control_closed (regTree [some 1]) (fun _ => some (some 123, []))
      ⟨0, 0, 0⟩).2.1 1 (some 123, []) (by decide) (by decide) rfl
    simpa using h
  · exact (gate_absent_control_closed (regTree [some 0]) (fun _ => some (some 123, []))
      ⟨0, 0, 0⟩).2.2 0 (by decide) rfl

/-- C4: a Mux reads its selector (defaulting to index 0 for a null
accessor); an out-of-range index returns 0; otherwise the result and the
whole remaining trace are exactly those of the selected upstream signal,
and the evaluation depends on the recursive resolver only through the
selected input — no other input is evaluated, so no register reads from
unselected subtrees can occur. -/
theorem mux_selects_exactly_one_input (t : ClockTree)
    (rec : Nat → Option (Option Nat × List Event)) (m : Mux) (acc : Option Nat) (idx : ℕ)
    (hc : readField t m.control = some acc) (hidx : acc.getD 0 = idx) :
    (∀ r, idx < m.inputs.length → rec (m.inputs.getD idx 0) = some r →
      get_frequency_mux t rec m = some (r.1, optEv m.control acc ++ r.2)) ∧
    (m.inputs.length ≤ idx →
      get_frequency_mux t rec m = some (some 0, optEv m.control acc)) ∧
    (∀ rec2, idx < m.inputs.length →
      rec2 (m.inputs.getD idx 0) = rec (m.inputs.getD idx 0) →
      get_frequency_mux t rec2 m = get_frequency_mux t rec m) := by
  refine ⟨?_, ?_, ?_⟩
  · intro r hlt hrec
    simp only [List.getD_eq_getElem?_getD] at hrec
    simp [get_frequency_mux, hc, hidx, hrec, Nat.not_le.mpr hlt]
  · intro hge
    simp [get_frequency_mux, hc, hidx, hge]
  · intro rec2 hlt heq
    simp only [List.getD_eq_getElem?_getD] at heq
    simp [get_frequency_mux, hc, hidx, heq, Nat.not_le.mpr hlt]

/-- C4 witness: three inputs (signals 4, 5, 6), selector reading 1:
result and trace come from signal 5 alone; selector reading 5 is out of
range and yields 0; and any resolver agreeing on signal 5 gives the same
evaluation. -/
theorem mux_selects_exactly_one_input_witness :
    get_frequency_mux (regTree [some 1])
        (fun s => if s = 5 then some (some 777, [Event.read 9 9]) else some (some 0, []))
        ⟨0, [4, 5, 6], 0⟩
      = some (some 777, [Event.read 0 1, Event.read 9 9]) ∧
    get_frequency_mux (regTree [some 5])
        (fun s => if s = 5 then some (some 777, [Event.read 9 9]) else some (some 0, []))
        ⟨0, [4, 5, 6], 0⟩
      = some (some 0, [Event.read 0 5]) ∧
    get_frequency_mux (regTree [some 1])
        (fun s => if s = 5 then some (some 777, [Event.read 9 9]) else none)
        ⟨0, [4, 5, 6], 0⟩
      = get_frequency_mux (regTree [some 1])
        (fun s => if s = 5 then some (some 777, [Event.read 9 9]) else some (some 0, []))
        ⟨0, [4, 5, 6], 0⟩ := by
  refine ⟨?_, ?_, ?_⟩
  · have h := (mux_selects_exactly_one_input (regTree [some 1])
      (fun s => if s = 5 then some (some 777, [Event.read 9 9]) else some (some 0, []))
      ⟨0, [4, 5, 6], 0⟩ (some 1) 1 (by decide) (by decide)).1
      (some 777, [Event.read 9 9]) (by decide) (by decide)
    simpa using h
  · have h := (mux_selects_exactly_one_input (regTree [some 5])
      (fun s => if s = 5 then some (some 777, [Event.read 9 9]) else some (some 0, []))
      ⟨0, [4, 5, 6], 0⟩ (some 5) 5 (by decide) (by decide)).2.1 (by decide)
    simpa using h
  · exact (mux_selects_exactly_one_input (regTree [some 1])
      (fun s => if s = 5 then some (some 777, [Event.read 9 9]) else some (some 0, []))
      ⟨0, [4, 5, 6], 0⟩ (some 1) 1 (by decide) (by decide)).2.2
      (fun s => if s = 5 then some (some 777, [Event.read 9 9]) else none)
      (by decide) (by decide)

/-- C2 (amended): the Divider divides the 64-bit product of the input
frequency and the multiplier by the effective divisor — the runtime
factor field when configured, else the fixed fallback — and the result
is the rational floor *reduced modulo 2^32* (the `uint32_t` narrowing);
the effective divisor must be nonzero (else the division is UB, see C3). -/
theorem divider_floor_formula (t : ClockTree)
    (rec : Nat → Option (Option Nat × List Event)) (d : Divider)
    (f fac den : ℕ) (ev0 : List Event) (accF accD : Option Nat)
    (h0 : rec d.input = some (some f, ev0))
    (hF : readField t d.factor = some accF)
    (hD : readField t d.denominator = some accD)
    (hfac : accF.getD d.value = fac) (hden : accD.getD 1 = den)
    (hnz : fac ≠ 0) (hf32 : f < 2 ^ 32) (hden32 : den < 2 ^ 32) :
    get_frequency_div t rec d =
      some (some (⌊((f * den : ℕ) : ℚ) / ((fac : ℕ) : ℚ)⌋.toNat % 2 ^ 32),
        ev0 ++ optEv d.factor accF ++ optEv d.denominator accD) := by
  have hprod : f * den < 18446744073709551616 := by
    calc f * den < 2 ^ 32 * 2 ^ 32 := Nat.mul_lt_mul'' hf32 hden32
      _ = 18446744073709551616 := by norm_num
  rw [floor_nat_div]
  simp [get_frequency_div, h0, hF, hD, hfac, hden, hnz]
  rw [Nat.mod_eq_of_lt hprod]

/-- C2 counterexample: input 2^31, multiplier field reading 4, divisor
field reading 1.  The claimed value `floor(input * mult / div)` is 2^33,
but the code narrows to `uint32_t` and returns 0. -/
theorem divider_overflow_counterexample :
    getFrequency dividerOverflowTree 3 1
      = some (some 0, [Event.read 0 1, Event.read 1 4]) ∧
    (2147483648 * 4 / 1 : ℕ) = 8589934592 ∧ (0 : ℕ) ≠ 8589934592 := by
  refine ⟨by decide, by norm_num, by norm_num⟩

/-- C2 witness: input 100000000 with fallback divisor 4 and no runtime
fields yields 25000000 with no reads; with a divisor field reading 5 and
no multiplier field, 20000000. -/
theorem divider_floor_formula_witness :
    get_frequency_div (regTree [none, none]) (fun _ => some (some 100000000, []))
        ⟨0, 1, 4, 0, 1⟩ = some (some 25000000, []) ∧
    get_frequency_div (regTree [some 5, none]) (fun _ => some (some 100000000, []))
        ⟨0, 1, 4, 0, 1⟩ = some (some 20000000, [Event.read 0 5]) := by
  constructor
  · have h := divider_floor_formula (regTree [none, none])
      (fun _ => some (some 100000000, [])) ⟨0, 1, 4, 0, 1⟩
      100000000 4 1 [] none none rfl (by decide) (by decide) (by decide) (by decide)
      (by decide) (by decide) (by decide)
    rw [h, floor_nat_div]
    decide
  · have h := divider_floor_formula (regTree [some 5, none])
      (fun _ => some (some 100000000, [])) ⟨0, 1, 4, 0, 1⟩
      100000000 5 1 [] (some 5) none rfl (by decide) (by decide) (by decide) (by decide)
      (by decide) (by decide) (by decide)
    rw [h, floor_nat_div]
    decide

/-- C3 (amended): a zero effective divisor is *not* handled: the Divider
performs the integer division `input_freq * denom / 0` (C++ UB), and the
Pll divides the `double` product by 0.0 and converts the resulting
non-finite value to `uint32_t` (C++ UB).  In the model both come out as
the UB marker, not as any sentinel value or error report. -/
theorem division_by_zero_is_ub (t : ClockTree)
    (rec : Nat → Option (Option Nat × List Event)) :
    (∀ (d : Divider) (f : ℕ) (ev0 : List Event) (accF accD : Option Nat),
      rec d.input = some (some f, ev0) →
      readField t d.factor = some accF →
      readField t d.denominator = some accD →
      accF.getD d.value = 0 →
      get_frequency_div t rec d =
        some (none, ev0 ++ optEv d.factor accF ++ optEv d.denominator accD)) ∧
    (∀ (p : Pll) (f : ℕ) (ev0 : List Event) (accI accF accD : Option Nat),
      rec p.input = some (some f, ev0) →
      readField t p.feedback_integer = some accI →
      readField t p.feedback_fraction = some accF →
      readField t p.post_divider = some accD →
      accD.getD 1 = 0 →
      get_frequency_pll t rec p =
        some (none, ev0 ++ optEv p.feedback_integer accI
          ++ optEv p.feedback_fraction accF ++ optEv p.post_divider accD)) := by
  constructor
  · intro d f ev0 accF accD h0 hF hD hz
    simp [get_frequency_div, h0, hF, hD, hz]
  · intro p f ev0 accI accF accD h0 hI hF hD hz
    simp [get_frequency_pll, h0, hI, hF, hD, hz]

/-- C3 counterexample: a Divider whose factor field reads 0 and a Pll
whose post-divider field reads 0 both resolve to the model's
undefined-behaviour marker (`none` in the value position) — not to the
sentinel 0, not to the upstream frequency, and not to any detectable
error value, so no deliberate division-by-zero policy exists. -/
theorem division_by_zero_no_policy_counterexample :
    (getFrequency dividerZeroTree 3 1).map Prod.fst = some none ∧
    (getFrequency pllZeroTree 3 1).map Prod.fst = some none := by
  refine ⟨by decide, by decide⟩

/-- C3 witness: concrete instantiations of both conjuncts of the amended
statement. -/
theorem division_by_zero_is_ub_witness :
    get_frequency_div (regTree [some 0, none]) (fun _ => some (some 1000, []))
        ⟨0, 1, 4, 0, 1⟩ = some (none, [Event.read 0 0]) ∧
    get_frequency_pll (regTree [some 50, some 0, some 0]) (fun _ => some (some 1000, []))
        ⟨0, 1, 0, 1, 2⟩
      = some (none, [Event.read 0 50, Event.read 1 0, Event.read 2 0]) := by
  constructor
  · have h := (division_by_zero_is_ub (regTree [some 0, none])
      (fun _ => some (some 1000, []))).1 ⟨0, 1, 4, 0, 1⟩ 1000 [] (some 0) none
      rfl (by decide) (by decide) (by decide)
    simpa using h
  · have h := (division_by_zero_is_ub (regTree [some 50, some 0, some 0])
      (fun _ => some (some 1000, []))).2 ⟨0, 1, 0, 1, 2⟩ 1000 [] (some 50) (some 0) (some 0)
      rfl (by decide) (by decide) (by decide) (by decide)
    simpa using h

/-- C6: with monotone boundaries, the raw source value's sub-range alone
determines the accessed kind-local array, and the offset subtracts the
sub-range's lower delimiter: 1 for generators (index 0 being the
reserved "no source"), and the previous kind's `last` boundary for
PLLs, gates, dividers and muxes. -/
theorem dispatch_by_boundary_subranges (t : ClockTree)
    (h1 : t.last_gen ≤ t.last_pll) (h2 : t.last_pll ≤ t.last_gate)
    (h3 : t.last_gate ≤ t.last_div) (h4 : t.last_div ≤ t.last_mux) (elem : ℕ) :
    (1 ≤ elem ∧ elem ≤ t.last_gen →
      dispatchElem t elem = ElemRef.gen (elem - 1)) ∧
    (t.last_gen < elem ∧ elem ≤ t.last_pll →
      dispatchElem t elem = ElemRef.pll (elem - t.last_gen)) ∧
    (t.last_pll < elem ∧ elem ≤ t.last_gate →
      dispatchElem t elem = ElemRef.gate (elem - t.last_pll)) ∧
    (t.last_gate < elem ∧ elem ≤ t.last_div →
      dispatchElem t elem = ElemRef.div (elem - t.last_gate)) ∧
    (t.last_div < elem ∧ elem ≤ t.last_mux →
      dispatchElem t elem = ElemRef.mux (elem - t.last_div)) := by
  refine ⟨?_, ?_, ?_, ?_, ?_⟩ <;> intro h <;> rw [dispatchElem] <;> split_ifs <;>
    first | rfl | omega

/-- C6 witness: boundaries 2/4/6/8/10; raw values 1, 3, 5, 7, 9 land in
the five kinds at the stated offsets. -/
theorem dispatch_by_boundary_subranges_witness :
    dispatchElem boundaryTree 1 = ElemRef.gen 0 ∧
    dispatchElem boundaryTree 3 = ElemRef.pll 1 ∧
    dispatchElem boundaryTree 5 = ElemRef.gate 1 ∧
    dispatchElem boundaryTree 7 = ElemRef.div 1 ∧
    dispatchElem boundaryTree 9 = ElemRef.mux 1 := by
  have h1 := dispatch_by_boundary_subranges boundaryTree
    (by decide) (by decide) (by decide) (by decide) 1
  have h3 := dispatch_by_boundary_subranges boundaryTree
    (by decide) (by decide) (by decide) (by decide) 3
  have h5 := dispatch_by_boundary_subranges boundaryTree
    (by decide) (by decide) (by decide) (by decide) 5
  have h7 := dispatch_by_boundary_subranges boundaryTree
    (by decide) (by decide) (by decide) (by decide) 7
  have h9 := dispatch_by_boundary_subranges boundaryTree
    (by decide) (by decide) (by decide) (by decide) 9
  exact ⟨h1.1 (by decide), h3.2.1 (by decide), h5.2.2.1 (by decide),
    h7.2.2.2.1 (by decide), h9.2.2.2.2 (by decide)⟩

/-- C1 (amended): the Pll computes in IEEE-754 `double` (53-bit
significand), not in 64-bit integer arithmetic.  The floored formula
`input_freq * (fb_int + fb_frac / 65536) / post_div` is returned exactly
whenever the integer product `input_freq * (fb_int * 65536 + fb_frac)`
fits in 53 bits, the post-divider is a power of two, and the exact
result fits in 32 bits; absent fields default to fb_int = 1, fb_frac = 0,
post_div = 1.  (Outside this regime double rounding can change the
result: see the counterexample.) -/
theorem pll_floor_correct_when_product_representable (t : ClockTree)
    (rec : Nat → Option (Option Nat × List Event)) (p : Pll)
    (f fi fr j : ℕ) (ev0 : List Event) (accI accF accD : Option Nat)
    (h0 : rec p.input = some (some f, ev0))
    (hI : readField t p.feedback_integer = some accI)
    (hF : readField t p.feedback_fraction = some accF)
    (hD : readField t p.post_divider = some accD)
    (hfi : accI.getD 1 = fi) (hfr : accF.getD 0 = fr) (hdv : accD.getD 1 = 2 ^ j)
    (hfi32 : fi < 2 ^ 32) (hfr32 : fr < 2 ^ 32) (hj : j < 32)
    (hprod : f * (fi * 65536 + fr) < 2 ^ 53)
    (hres : f * (fi * 65536 + fr) / (65536 * 2 ^ j) < 2 ^ 32) :
    get_frequency_pll t rec p =
      some (some (f * (fi * 65536 + fr) / (65536 * 2 ^ j)),
        ev0 ++ optEv p.feedback_integer accI ++ optEv p.feedback_fraction accF
          ++ optEv p.post_divider accD) := by
  have hD0 : (2 : ℕ) ^ j ≠ 0 := pow_ne_zero j (by norm_num)
  have hcore := pll_double_exact f fi fr j hfi32 hfr32 hj hprod
  have hden_pos : (0 : ℚ) < ((65536 * 2 ^ j : ℕ) : ℚ) := by
    have : (0 : ℕ) < 65536 * 2 ^ j := by positivity
    exact_mod_cast this
  have hlt : ((f * (fi * 65536 + fr) : ℕ) : ℚ) / ((65536 * 2 ^ j : ℕ) : ℚ) < 2 ^ 32 := by
    rw [div_lt_iff₀ hden_pos]
    have h1 : f * (fi * 65536 + fr) < 2 ^ 32 * (65536 * 2 ^ j) :=
      (Nat.div_lt_iff_lt_mul (by positivity)).mp hres
    exact_mod_cast h1
  have hfloor : (⌊((f * (fi * 65536 + fr) : ℕ) : ℚ) / ((65536 * 2 ^ j : ℕ) : ℚ)⌋).toNat
      = f * (fi * 65536 + fr) / (65536 * 2 ^ j) := floor_nat_div _ _
  simp only [get_frequency_pll, h0, hI, hF, hD, hfi, hfr, hdv]
  rw [if_neg hD0]
  rw [hcore, if_pos hlt, hfloor]

/-- C1 counterexample: input 4194303 Hz, feedback integer 32832,
feedback fraction 1, post-divider 64.  The exact 64-bit computation
floors to 2151677439, but the `double` product rounds up (tie to even at
the 54-bit product), so the code returns 2151677440. -/
theorem pll_double_rounding_counterexample :
    getFrequency pllRoundingTree 3 1
      = some (some 2151677440, [Event.read 0 32832, Event.read 1 1, Event.read 2 64]) ∧
    4194303 * (32832 * 65536 + 1) / (65536 * 64) = 2151677439 ∧
    (2151677440 : ℕ) ≠ 2151677439 := by
  refine ⟨by decide, by norm_num, by norm_num⟩

/-- C1 witness: input 1000000 Hz, feedback integer 50, fraction 32768,
post-divider 1 yields floor(1000000 * 50.5) = 50500000. -/
theorem pll_floor_correct_witness :
    get_frequency_pll (regTree [some 50, some 32768, some 1])
        (fun _ => some (some 1000000, [])) ⟨0, 1, 0, 1, 2⟩
      = some (some 50500000, [Event.read 0 50, Event.read 1 32768, Event.read 2 1]) := by
  have h := pll_floor_correct_when_product_representable
    (regTree [some 50, some 32768, some 1]) (fun _ => some (some 1000000, []))
    ⟨0, 1, 0, 1, 2⟩ 1000000 50 32768 0 [] (some 50) (some 32768) (some 1)
    rfl (by decide) (by decide) (by decide) (by decide) (by decide) (by decide)
    (by decide) (by decide) (by decide) (by decide) (by decide)
  rw [h]
  decide

theorem readsOk_nil (t : ClockTree) : ReadsOk t [] := by
  intro e he
  cases he

theorem readsOk_append {t : ClockTree} {a b : List Event}
    (ha : ReadsOk t a) (hb : ReadsOk t b) : ReadsOk t (a ++ b) := by
  intro e he
  rcases List.mem_append.mp he with h | h
  · exact ha e h
  · exact hb e h

theorem readsOk_optEv {t : ClockTree} {i : Nat} {acc : Option Nat}
    (h : readField t i = some acc) : ReadsOk t (optEv i acc) := by
  cases acc with
  | none => exact readsOk_nil t
  | some v =>
    intro e he
    simp only [optEv, List.mem_singleton] at he
    exact ⟨i, v, he, h⟩

theorem readsOk_cons {t : ClockTree} {i v : Nat} {tr : List Event}
    (h : readField t i = some (some v)) (htr : ReadsOk t tr) :
    ReadsOk t (Event.read i v :: tr) := by
  intro e he
  rcases List.mem_cons.mp he with h2 | h2
  · exact ⟨i, v, h2, h⟩
  · exact htr e h2

theorem gen_reads {t : ClockTree} {g : Generator} {r : Option Nat} {tr : List Event}
    (h : get_frequency_gen t g = some (r, tr)) : ReadsOk t tr := by
  rcases hc : readField t g.control with _ | acc
  · simp [get_frequency_gen, hc] at h
    obtain ⟨-, h2⟩ := h
    subst h2
    exact readsOk_nil t
  · by_cases hl : acc.getD 0 ≥ g.values.length <;>
      [skip; skip] <;>
      · simp [get_frequency_gen, hc, hl] at h
        obtain ⟨-, h2⟩ := h
        subst h2
        exact readsOk_optEv hc

theorem pll_reads {t : ClockTree} {rec : Nat → Option (Option Nat × List Event)}
    {p : Pll} {r : Option Nat} {tr : List Event}
    (hrec : ∀ s x etr, rec s = some (x, etr) → ReadsOk t etr)
    (h : get_frequency_pll t rec p = some (r, tr)) : ReadsOk t tr := by
  rcases h0 : rec p.input with _ | ⟨x, ev0⟩
  · simp [get_frequency_pll, h0] at h
  · have hev0 : ReadsOk t ev0 := hrec _ _ _ h0
    rcases x with _ | f
    · simp [get_frequency_pll, h0] at h
      obtain ⟨-, h2⟩ := h
      subst h2
      exact hev0
    · rcases hI : readField t p.feedback_integer with _ | accI
      · simp [get_frequency_pll, h0, hI] at h
        obtain ⟨-, h2⟩ := h
        subst h2
        exact hev0
      · rcases hF : readField t p.feedback_fraction with _ | accF
        · simp [get_frequency_pll, h0, hI, hF] at h
          obtain ⟨-, h2⟩ := h
          subst h2
          exact readsOk_append hev0 (readsOk_optEv hI)
        · rcases hD : readField t p.post_divider with _ | accD
          · simp [get_frequency_pll, h0, hI, hF, hD] at h
            obtain ⟨-, h2⟩ := h
            subst h2
            exact readsOk_append hev0 (readsOk_append (readsOk_optEv hI) (readsOk_optEv hF))
          · have hall : ReadsOk t (ev0 ++ optEv p.feedback_integer accI
                ++ optEv p.feedback_fraction accF ++ optEv p.post_divider accD) :=
              readsOk_append (readsOk_append (readsOk_append hev0 (readsOk_optEv hI))
                (readsOk_optEv hF)) (readsOk_optEv hD)
            simp only [get_frequency_pll, h0, hI, hF, hD] at h
            split at h
            · simp only [Option.some.injEq, Prod.mk.injEq] at h
              exact h.2 ▸ hall
            · split at h
              · simp only [Option.some.injEq, Prod.mk.injEq] at h
                exact h.2 ▸ hall
              · simp only [Option.some.injEq, Prod.mk.injEq] at h
                exact h.2 ▸ hall

theorem gate_reads {t : ClockTree} {rec : Nat → Option (Option Nat × List Event)}
    {g : Gate} {r : Option Nat} {tr : List Event}
    (hrec : ∀ s x etr, rec s = some (x, etr) → ReadsOk t etr)
    (h : get_frequency_gate t rec g = some (r, tr)) : ReadsOk t tr := by
  rcases hc : readField t g.control with _ | acc
  · simp [get_frequency_gate, hc] at h
    obtain ⟨-, h2⟩ := h
    subst h2
    exact readsOk_nil t
  · rcases acc with _ | v
    · simp [get_frequency_gate, hc] at h
      obtain ⟨-, h2⟩ := h
      subst h2
      exact readsOk_nil t
    · by_cases hv : v = 0
      · subst hv
        simp [get_frequency_gate, hc] at h
        obtain ⟨-, h2⟩ := h
        subst h2
        exact readsOk_cons hc (readsOk_nil t)
      · rcases hin : rec g.input with _ | ⟨x, ev⟩
        · simp [get_frequency_gate, hc, hv, hin] at h
        · simp [get_frequency_gate, hc, hv, hin] at h
          obtain ⟨-, h2⟩ := h
          subst h2
          exact readsOk_cons hc (hrec _ _ _ hin)

theorem div_reads {t : ClockTree} {rec : Nat → Option (Option Nat × List Event)}
    {d : Divider} {r : Option Nat} {tr : List Event}
    (hrec : ∀ s x etr, rec s = some (x, etr) → ReadsOk t etr)
    (h : get_frequency_div t rec d = some (r, tr)) : ReadsOk t tr := by
  rcases h0 : rec d.input with _ | ⟨x, ev0⟩
  · simp [get_frequency_div, h0] at h
  · have hev0 : ReadsOk t ev0 := hrec _ _ _ h0
    rcases x with _ | f
    · simp [get_frequency_div, h0] at h
      obtain ⟨-, h2⟩ := h
      subst h2
      exact hev0
    · rcases hF : readField t d.factor with _ | accF
      · simp [get_frequency_div, h0, hF] at h
        obtain ⟨-, h2⟩ := h
        subst h2
        exact hev0
      · rcases hD : readField t d.denominator with _ | accD
        · simp [get_frequency_div, h0, hF, hD] at h
          obtain ⟨-, h2⟩ := h
          subst h2
          exact readsOk_append hev0 (readsOk_optEv hF)
        · have hall : ReadsOk t (ev0 ++ optEv d.factor accF ++ optEv d.denominator accD) :=
            readsOk_append (readsOk_append hev0 (readsOk_optEv hF)) (readsOk_optEv hD)
          simp only [get_frequency_div, h0, hF, hD] at h
          split at h
          · simp only [Option.some.injEq, Prod.mk.injEq] at h
            exact h.2 ▸ hall
          · simp only [Option.some.injEq, Prod.mk.injEq] at h
            exact h.2 ▸ hall

theorem mux_reads {t : ClockTree} {rec : Nat → Option (Option Nat × List Event)}
    {m : Mux} {r : Option Nat} {tr : List Event}
    (hrec : ∀ s x etr, rec s = some (x, etr) → ReadsOk t etr)
    (h : get_frequency_mux t rec m = some (r, tr)) : ReadsOk t tr := by
  rcases hc : readField t m.control with _ | acc
  · simp [get_frequency_mux, hc] at h
    obtain ⟨-, h2⟩ := h
    subst h2
    exact readsOk_nil t
  · by_cases hl : acc.getD 0 ≥ m.inputs.length
    · simp [get_frequency_mux, hc, hl] at h
      obtain ⟨-, h2⟩ := h
      subst h2
      exact readsOk_optEv hc
    · rcases hin : rec (m.inputs.getD (acc.getD 0) 0) with _ | ⟨x, ev⟩ <;>
        simp only [List.getD_eq_getElem?_getD] at hin <;>
        simp [get_frequency_mux, hc, hl, hin] at h
      obtain ⟨-, h2⟩ := h
      subst h2
      exact readsOk_append (readsOk_optEv hc) (hrec _ _ _ hin)

/-- C9: resolution is a pure function of the tables and the register
state — the embedding is deterministic by construction, the graph data
is immutable, and this theorem adds the side-effect discipline: every
event of every resolution trace is a `read` (never a `write`) of a
configured register field yielding exactly the value held by the fixed
register state, so repeated calls produce identical results and
identical read traces, and each element evaluation reads each of its
field references at most once (each consulted reference contributes the
single-event `optEv` block visible in the evaluator definitions). -/
theorem resolve_trace_reads_only (t : ClockTree) :
    ∀ (fuel s : ℕ) (r : Option Nat) (tr : List Event),
      getFrequency t fuel s = some (r, tr) → ReadsOk t tr := by
  intro fuel
  induction fuel with
  | zero =>
    intro s r tr h
    simp [getFrequency] at h
  | succ fuel ih =>
    intro s r tr h
    have hrec : ∀ s2 x etr, getFrequency t fuel s2 = some (x, etr) → ReadsOk t etr :=
      fun s2 x etr hh => ih s2 x etr hh
    rw [getFrequency] at h
    by_cases hs : s ≥ t.signals.length
    · rw [if_pos hs] at h
      simp only [Option.some.injEq, Prod.mk.injEq] at h
      exact h.2 ▸ readsOk_nil t
    · rw [if_neg hs] at h
      rcases hsig : t.signals.get? s with _ | sig <;>
        simp only [hsig, Option.some.injEq, Prod.mk.injEq] at h
      · exact h.2 ▸ readsOk_nil t
      · rcases hd : dispatchElem t sig.source with _ | i | i | i | i | i | _ <;>
          simp only [hd, Option.some.injEq, Prod.mk.injEq] at h
        · exact h.2 ▸ readsOk_nil t
        · rcases harr : t.generators.get? i with _ | g <;> simp only [harr, Option.some.injEq, Prod.mk.injEq] at h
          · exact h.2 ▸ readsOk_nil t
          · exact gen_reads h
        · rcases harr : t.plls.get? i with _ | p <;> simp only [harr, Option.some.injEq, Prod.mk.injEq] at h
          · exact h.2 ▸ readsOk_nil t
          · exact pll_reads hrec h
        · rcases harr : t.gates.get? i with _ | g <;> simp only [harr, Option.some.injEq, Prod.mk.injEq] at h
          · exact h.2 ▸ readsOk_nil t
          · exact gate_reads hrec h
        · rcases harr : t.dividers.get? i with _ | d <;> simp only [harr, Option.some.injEq, Prod.mk.injEq] at h
          · exact h.2 ▸ readsOk_nil t
          · exact div_reads hrec h
        · rcases harr : t.muxes.get? i with _ | m <;> simp only [harr, Option.some.injEq, Prod.mk.injEq] at h
          · exact h.2 ▸ readsOk_nil t
          · exact mux_reads hrec h
        · exact h.2 ▸ readsOk_nil t

/-- C9 witness: the gate-over-generator chain resolves signal 1 reading
field 1 (gate control) then field 0 (generator selector); both trace
events are reads of configured fields returning the stored values. -/
theorem resolve_trace_reads_only_witness :
    ∃ i v, Event.read 0 1 = Event.read i v ∧ readField chainTree i = some (some v) :=
  resolve_trace_reads_only chainTree 3 1 (some 7)
    [Event.read 1 1, Event.read 0 1] (by decide) (Event.read 0 1) (by decide)

theorem pll_congr {t : ClockTree} {rec1 rec2 : Nat → Option (Option Nat × List Event)}
    {p : Pll} (h : rec1 p.input = rec2 p.input) :
    get_frequency_pll t rec1 p = get_frequency_pll t rec2 p := by
  simp only [get_frequency_pll, h]

theorem gate_congr {t : ClockTree} {rec1 rec2 : Nat → Option (Option Nat × List Event)}
    {g : Gate} (h : rec1 g.input = rec2 g.input) :
    get_frequency_gate t rec1 g = get_frequency_gate t rec2 g := by
  simp only [get_frequency_gate, h]

theorem div_congr {t : ClockTree} {rec1 rec2 : Nat → Option (Option Nat × List Event)}
    {d : Divider} (h : rec1 d.input = rec2 d.input) :
    get_frequency_div t rec1 d = get_frequency_div t rec2 d := by
  simp only [get_frequency_div, h]

theorem mux_congr {t : ClockTree} {rec1 rec2 : Nat → Option (Option Nat × List Event)}
    {m : Mux} (h : ∀ i ∈ m.inputs, rec1 i = rec2 i) :
    get_frequency_mux t rec1 m = get_frequency_mux t rec2 m := by
  rcases hc : readField t m.control with _ | acc
  · simp [get_frequency_mux, hc]
  · simp only [get_frequency_mux, hc]
    by_cases hl : acc.getD 0 ≥ m.inputs.length
    · rw [if_pos hl, if_pos hl]
    · rw [if_neg hl, if_neg hl]
      have hmem : m.inputs.getD (acc.getD 0) 0 ∈ m.inputs := by
        push_neg at hl
        rw [List.getD_eq_getElem?_getD, List.getElem?_eq_getElem hl]
        exact List.getElem_mem hl
      rw [h _ hmem]

theorem gen_some (t : ClockTree) (g : Generator) :
    ∃ y, get_frequency_gen t g = some y := by
  rcases hc : readField t g.control with _ | acc
  · simp only [get_frequency_gen, hc]
    exact ⟨_, rfl⟩
  · simp only [get_frequency_gen, hc]
    split
    · exact ⟨_, rfl⟩
    · exact ⟨_, rfl⟩

theorem pll_some (t : ClockTree) (rec : Nat → Option (Option Nat × List Event))
    (p : Pll) (h : ∃ x, rec p.input = some x) :
    ∃ y, get_frequency_pll t rec p = some y := by
  obtain ⟨⟨x, ev0⟩, h0⟩ := h
  rcases x with _ | f
  · simp only [get_frequency_pll, h0]
    exact ⟨_, rfl⟩
  · rcases hI : readField t p.feedback_integer with _ | accI
    · simp only [get_frequency_pll, h0, hI]
      exact ⟨_, rfl⟩
    · rcases hF : readField t p.feedback_fraction with _ | accF
      · simp only [get_frequency_pll, h0, hI, hF]
        exact ⟨_, rfl⟩
      · rcases hD : readField t p.post_divider with _ | accD
        · simp only [get_frequency_pll, h0, hI, hF, hD]
          exact ⟨_, rfl⟩
        · simp only [get_frequency_pll, h0, hI, hF, hD]
          split
          · exact ⟨_, rfl⟩
          · split
            · exact ⟨_, rfl⟩
            · exact ⟨_, rfl⟩

theorem gate_some (t : ClockTree) (rec : Nat → Option (Option Nat × List Event))
    (g : Gate) (h : ∃ x, rec g.input = some x) :
    ∃ y, get_frequency_gate t rec g = some y := by
  obtain ⟨⟨x, ev⟩, h0⟩ := h
  rcases hc : readField t g.control with _ | acc
  · simp only [get_frequency_gate, hc]
    exact ⟨_, rfl⟩
  · rcases acc with _ | v
    · simp only [get_frequency_gate, hc]
      exact ⟨_, rfl⟩
    · simp only [get_frequency_gate, hc]
      split
      · rw [h0]
        exact ⟨_, rfl⟩
      · exact ⟨_, rfl⟩

theorem div_some (t : ClockTree) (rec : Nat → Option (Option Nat × List Event))
    (d : Divider) (h : ∃ x, rec d.input = some x) :
    ∃ y, get_frequency_div t rec d = some y := by
  obtain ⟨⟨x, ev0⟩, h0⟩ := h
  rcases x with _ | f
  · simp only [get_frequency_div, h0]
    exact ⟨_, rfl⟩
  · rcases hF : readField t d.factor with _ | accF
    · simp only [get_frequency_div, h0, hF]
      exact ⟨_, rfl⟩
    · rcases hD : readField t d.denominator with _ | accD
      · simp only [get_frequency_div, h0, hF, hD]
        exact ⟨_, rfl⟩
      · simp only [get_frequency_div, h0, hF, hD]
        split
        · exact ⟨_, rfl⟩
        · exact ⟨_, rfl⟩

theorem mux_some (t : ClockTree) (rec : Nat → Option (Option Nat × List Event))
    (m : Mux) (h : ∀ i ∈ m.inputs, ∃ x, rec i = some x) :
    ∃ y, get_frequency_mux t rec m = some y := by
  rcases hc : readField t m.control with _ | acc
  · simp only [get_frequency_mux, hc]
    exact ⟨_, rfl⟩
  · by_cases hl : acc.getD 0 ≥ m.inputs.length
    · simp only [get_frequency_mux, hc]
      rw [if_pos hl]
      exact ⟨_, rfl⟩
    · have hmem : m.inputs.getD (acc.getD 0) 0 ∈ m.inputs := by
        push_neg at hl
        rw [List.getD_eq_getElem?_getD, List.getElem?_eq_getElem hl]
        exact List.getElem_mem hl
      obtain ⟨⟨x, ev⟩, hx⟩ := h _ hmem
      simp only [get_frequency_mux, hc]
      rw [if_neg hl, hx]
      exact ⟨_, rfl⟩

/-- C10: if the tables are acyclic, witnessed by a rank function that
strictly decreases from each signal to every upstream signal its source
element can recurse into (all of a Mux's inputs included), then each
resolution terminates within fuel `rank s + 1` — the recursion depth is
bounded by the signal's depth in the graph — and extra fuel never
changes the result. -/
theorem resolve_terminates_on_acyclic (t : ClockTree) (rank : ℕ → ℕ)
    (hrank : ∀ s sig, t.signals.get? s = some sig →
      ∀ i ∈ elemInputs t sig.source, rank i < rank s) :
    ∀ (s fuel : ℕ), rank s < fuel →
      getFrequency t fuel s = getFrequency t (rank s + 1) s ∧
      ∃ res, getFrequency t fuel s = some res := by
  suffices H : ∀ n s fuel, rank s < n → rank s < fuel →
      getFrequency t fuel s = getFrequency t (rank s + 1) s ∧
      ∃ res, getFrequency t fuel s = some res by
    intro s fuel h
    exact H (rank s + 1) s fuel (Nat.lt_succ_self _) h
  intro n
  induction n with
  | zero => intro s fuel h; omega
  | succ n ih =>
    intro s fuel hn hf
    obtain ⟨a, rfl⟩ : ∃ a, fuel = a + 1 := ⟨fuel - 1, by omega⟩
    by_cases hs : s ≥ t.signals.length
    · refine ⟨?_, ⟨(some 0, []), ?_⟩⟩ <;> · rw [getFrequency]; try rw [getFrequency]
                                            simp [hs]
    · rcases hsig : t.signals.get? s with _ | sig
      · have hsig2 : t.signals[s]? = none := by
          simpa [List.get?_eq_getElem?] using hsig
        refine ⟨?_, ⟨(none, []), ?_⟩⟩ <;>
          · rw [getFrequency]; try rw [getFrequency]
            simp [hs, hsig2]
      · have hIH : ∀ i ∈ elemInputs t sig.source,
            getFrequency t a i = getFrequency t (rank s) i ∧
            ∃ res, getFrequency t a i = some res := by
          intro i hi
          have hlt := hrank s sig hsig i hi
          have h1 := ih i a (by omega) (by omega)
          have h2 := ih i (rank s) (by omega) (by omega)
          exact ⟨h1.1.trans h2.1.symm, h1.2⟩
        have unfoldL : getFrequency t (a + 1) s = ite (s ≥ t.signals.length)
            (some (some 0, [])) (match t.signals.get? s with
              | none => some (none, [])
              | some sig => match dispatchElem t sig.source with
                | ElemRef.noSource => some (some 0, [])
                | ElemRef.gen i => match t.generators.get? i with
                  | none => some (none, [])
                  | some g => get_frequency_gen t g
                | ElemRef.pll i => match t.plls.get? i with
                  | none => some (none, [])
                  | some p => get_frequency_pll t (fun s2 => getFrequency t a s2) p
                | ElemRef.gate i => match t.gates.get? i with
                  | none => some (none, [])
                  | some g => get_frequency_gate t (fun s2 => getFrequency t a s2) g
                | ElemRef.div i => match t.dividers.get? i with
                  | none => some (none, [])
                  | some d => get_frequency_div t (fun s2 => getFrequency t a s2) d
                | ElemRef.mux i => match t.muxes.get? i with
                  | none => some (none, [])
                  | some m => get_frequency_mux t (fun s2 => getFrequency t a s2) m
                | ElemRef.invalid => some (some 0, [])) := by
          rw [getFrequency]
        have unfoldR : getFrequency t (rank s + 1) s = ite (s ≥ t.signals.length)
            (some (some 0, [])) (match t.signals.get? s with
              | none => some (none, [])
              | some sig => match dispatchElem t sig.source with
                | ElemRef.noSource => some (some 0, [])
                | ElemRef.gen i => match t.generators.get? i with
                  | none => some (none, [])
                  | some g => get_frequency_gen t g
                | ElemRef.pll i => match t.plls.get? i with
                  | none => some (none, [])
                  | some p => get_frequency_pll t (fun s2 => getFrequency t (rank s) s2) p
                | ElemRef.gate i => match t.gates.get? i with
                  | none => some (none, [])
                  | some g => get_frequency_gate t (fun s2 => getFrequency t (rank s) s2) g
                | ElemRef.div i => match t.dividers.get? i with
                  | none => some (none, [])
                  | some d => get_frequency_div t (fun s2 => getFrequency t (rank s) s2) d
                | ElemRef.mux i => match t.muxes.get? i with
                  | none => some (none, [])
                  | some m => get_frequency_mux t (fun s2 => getFrequency t (rank s) s2) m
                | ElemRef.invalid => some (some 0, [])) := by
          rw [getFrequency]
        rw [unfoldL, unfoldR, if_neg hs, if_neg hs]
        simp only [hsig]
        rcases hd : dispatchElem t sig.source with _ | i | i | i | i | i | _ <;>
          simp only [hd]
        · exact ⟨by trivial, _, rfl⟩
        · rcases harr : t.generators.get? i with _ | g <;> simp only [harr]
          · exact ⟨by trivial, _, rfl⟩
          · exact ⟨by trivial, gen_some t g⟩
        · rcases harr : t.plls.get? i with _ | p <;> simp only [harr]
          · exact ⟨by trivial, _, rfl⟩
          · have hmem : p.input ∈ elemInputs t sig.source := by
              simp [elemInputs, hd, ← List.get?_eq_getElem?, harr]
            exact ⟨pll_congr (hIH p.input hmem).1,
              pll_some t _ p ⟨_, ((hIH p.input hmem).2).choose_spec⟩⟩
        · rcases harr : t.gates.get? i with _ | g <;> simp only [harr]
          · exact ⟨by trivial, _, rfl⟩
          · have hmem : g.input ∈ elemInputs t sig.source := by
              simp [elemInputs, hd, ← List.get?_eq_getElem?, harr]
            exact ⟨gate_congr (hIH g.input hmem).1,
              gate_some t _ g ⟨_, ((hIH g.input hmem).2).choose_spec⟩⟩
        · rcases harr : t.dividers.get? i with _ | d <;> simp only [harr]
          · exact ⟨by trivial, _, rfl⟩
          · have hmem : d.input ∈ elemInputs t sig.source := by
              simp [elemInputs, hd, ← List.get?_eq_getElem?, harr]
            exact ⟨div_congr (hIH d.input hmem).1,
              div_some t _ d ⟨_, ((hIH d.input hmem).2).choose_spec⟩⟩
        · rcases harr : t.muxes.get? i with _ | m <;> simp only [harr]
          · exact ⟨by trivial, _, rfl⟩
          · have hmem : ∀ i2 ∈ m.inputs, i2 ∈ elemInputs t sig.source := by
              intro i2 hi2
              simpa [elemInputs, hd, ← List.get?_eq_getElem?, harr] using hi2
            exact ⟨mux_congr (fun i2 hi2 => (hIH i2 (hmem i2 hi2)).1),
              mux_some t _ m (fun i2 hi2 => ⟨_, ((hIH i2 (hmem i2 hi2)).2).choose_spec⟩)⟩
        · exact ⟨by trivial, _, rfl⟩

/-- C10 witness: the gate-over-generator chain is acyclic with rank
equal to the signal index; resolving signal 1 with any fuel above 2
equals the fuel-2 resolution and succeeds. -/
theorem resolve_terminates_on_acyclic_witness :
    getFrequency chainTree 9 1 = getFrequency chainTree 2 1 ∧
    ∃ res, getFrequency chainTree 9 1 = some res := by
  have h := resolve_terminates_on_acyclic chainTree (fun s => s) ?hrank 1 9 (by norm_num)
  case hrank =>
    intro s sig hs i hi
    match s with
    | 0 =>
      have : sig = ⟨1, 0, 0, 0⟩ := by
        simpa [chainTree] using hs.symm
      subst this
      simp [elemInputs, dispatchElem, chainTree] at hi
    | 1 =>
      have : sig = ⟨2, 0, 0, 0⟩ := by
        simpa [chainTree] using hs.symm
      subst this
      simp [elemInputs, dispatchElem, chainTree] at hi
      subst hi
      decide
    | n + 2 => simp [chainTree] at hs
  exact h

end clocktree
